import Mathlib

/-!
Verification development for the parts-catalogue web application.

The TypeScript data-access layer (`src/services/firebase.ts`, the service
variant embedded in `src/services/pdf.ts`, and the page handlers in
`src/pages/take-photo.tsx`) is shallowly embedded here.  JavaScript objects
returned by the remote document store are modelled by the inductive type
`Val`; JS objects are association lists with the assignment / property-access
semantics of JS (`rset` / `rget`), and spread syntax is `spreadFields`.
Remote stores are explicit state (`World`); remote faults are injected
through a `Faults` record so that best-effort error handling can be stated
and proved.
-/

namespace PartsCatalogue

/-- Model of a JSON-like value held by the remote document store.  Numbers
are modelled as integers (no claim performs numeric arithmetic). -/
inductive Val where
  | null
  | bool (b : Bool)
  | num (n : Int)
  | str (s : String)
  | arr (elems : List Val)
  | obj (fields : List (String × Val))

/-- JS truthiness of a value (`if (v)`): `null`, `false`, `0` and the empty
string are falsy; arrays and objects are always truthy. -/
def jsTruthy : Val → Bool
  | .null => false
  | .bool b => b
  | .num n => n != 0
  | .str s => s != ""
  | .arr _ => true
  | .obj _ => true

/-- `isRecord` from the service variant in `pdf.ts`:
`typeof value === 'object' && value !== null && !Array.isArray(value)`. -/
def isRecord : Val → Bool
  | .obj _ => true
  | _ => false

/-- `typeof v === 'object'` (true for plain objects, arrays and `null`). -/
def isObjectType : Val → Bool
  | .null => true
  | .arr _ => true
  | .obj _ => true
  | _ => false

/-- Field list of a plain object (empty for every other value). -/
def objFields : Val → List (String × Val)
  | .obj fs => fs
  | _ => []

/-- JS property read `m[k]` on an association list: first binding wins,
`undefined` is `none`. -/
def rget {α : Type} (m : List (String × α)) (k : String) : Option α :=
  match m with
  | [] => none
  | p :: rest => if p.1 = k then some p.2 else rget rest k

/-- JS property assignment `m[k] = v`: replaces the first binding of `k`
in place, appends a fresh binding when `k` is absent. -/
def rset {α : Type} (m : List (String × α)) (k : String) (v : α) : List (String × α) :=
  match m with
  | [] => [(k, v)]
  | p :: rest => if p.1 = k then (k, v) :: rest else p :: rset rest k v

/-- Removal of a key (used for blob-store deletes). -/
def rdel {α : Type} (m : List (String × α)) (k : String) : List (String × α) :=
  match m with
  | [] => []
  | p :: rest => if p.1 = k then rdel rest k else p :: rdel rest k

/-- The keys of an association list. -/
def keys {α : Type} (m : List (String × α)) : List String := m.map Prod.fst

/-- `Object.entries(v)`: fields of an object, index/value pairs of an array,
empty for primitives (whose enumerable own properties are irrelevant here:
every claim filters such entries out). -/
def entriesOf : Val → List (String × Val)
  | .obj fs => fs
  | .arr es => es.enum.map (fun p => (toString p.1, p.2))
  | _ => []

/-- JS property access `v.k` (named fields only; named properties of arrays
and primitives are `undefined`, as in the source's uses). -/
def getProp (v : Val) (k : String) : Option Val :=
  match v with
  | .obj fs => rget fs k
  | _ => none

/-- JS `x || d` applied to a possibly-missing property: the property value
when present and truthy, the default otherwise. -/
def jsOr (v : Option Val) (d : Val) : Val :=
  match v with
  | some x => if jsTruthy x then x else d
  | none => d

@[simp] theorem keys_nil {α : Type} : keys ([] : List (String × α)) = [] := rfl

@[simp] theorem keys_cons {α : Type} (p : String × α) (rest : List (String × α)) :
    keys (p :: rest) = p.1 :: keys rest := rfl

theorem rget_rset {α : Type} (m : List (String × α)) (k k' : String) (v : α) :
    rget (rset m k v) k' = if k = k' then some v else rget m k' := by
  induction m with
  | nil =>
    by_cases h : k = k' <;> simp [rset, rget, h]
  | cons p rest ih =>
    by_cases h1 : p.1 = k
    · subst h1
      by_cases h2 : p.1 = k' <;> simp [rset, rget, h2]
    · by_cases h3 : p.1 = k'
      · have h2 : ¬ k = k' := by rw [← h3]; intro hc; exact h1 hc.symm
        have h2' : ¬ k' = k := fun hc => h2 hc.symm
        simp [rset, rget, h1, h2, h2', h3]
      · simp [rset, rget, h1, h3, ih]

theorem rget_eq_none_of_not_mem_keys {α : Type} (m : List (String × α)) (k : String)
    (h : k ∉ keys m) : rget m k = none := by
  induction m with
  | nil => rfl
  | cons p rest ih =>
    rw [keys_cons, List.mem_cons] at h
    push_neg at h
    have hne : ¬ p.1 = k := fun hc => h.1 hc.symm
    simp [rget, hne, ih h.2]

theorem keys_rset_subset {α : Type} (m : List (String × α)) (k : String) (v : α)
    (x : String) (hx : x ∈ keys (rset m k v)) : x = k ∨ x ∈ keys m := by
  induction m with
  | nil =>
    simp [rset] at hx
    exact Or.inl hx
  | cons p rest ih =>
    by_cases h1 : p.1 = k
    · rw [rset, if_pos h1, keys_cons, List.mem_cons] at hx
      rcases hx with h | h
      · exact Or.inl h
      · exact Or.inr (by rw [keys_cons, List.mem_cons]; exact Or.inr h)
    · rw [rset, if_neg h1, keys_cons, List.mem_cons] at hx
      rcases hx with h | h
      · exact Or.inr (by rw [keys_cons, List.mem_cons]; exact Or.inl h)
      · rcases ih h with h' | h'
        · exact Or.inl h'
        · exact Or.inr (by rw [keys_cons, List.mem_cons]; exact Or.inr h')

theorem keys_rset_nodup {α : Type} (m : List (String × α)) (k : String) (v : α)
    (h : (keys m).Nodup) : (keys (rset m k v)).Nodup := by
  induction m with
  | nil => simp [rset]
  | cons p rest ih =>
    rw [keys_cons, List.nodup_cons] at h
    by_cases h1 : p.1 = k
    · rw [rset, if_pos h1, keys_cons, List.nodup_cons]
      exact ⟨by rw [← h1]; exact h.1, h.2⟩
    · rw [rset, if_neg h1, keys_cons, List.nodup_cons]
      refine ⟨?_, ih h.2⟩
      intro hc
      rcases keys_rset_subset rest k v p.1 hc with h' | h'
      · exact h1 h'
      · exact h.1 h'

theorem mem_rset {α : Type} (m : List (String × α)) (k : String) (v : α)
    (p : String × α) (hp : p ∈ rset m k v) : p = (k, v) ∨ p ∈ m := by
  induction m with
  | nil => simp [rset] at hp; exact Or.inl hp
  | cons q rest ih =>
    by_cases h1 : q.1 = k
    · simp [rset, h1] at hp
      rcases hp with h | h
      · exact Or.inl h
      · exact Or.inr (by simp [h])
    · simp [rset, h1] at hp
      rcases hp with h | h
      · exact Or.inr (by simp [h])
      · rcases ih h with h' | h'
        · exact Or.inl h'
        · exact Or.inr (by simp [h'])

theorem length_rset_le {α : Type} (m : List (String × α)) (k : String) (v : α) :
    (rset m k v).length ≤ m.length + 1 := by
  induction m with
  | nil => simp [rset]
  | cons p rest ih =>
    by_cases h1 : p.1 = k
    · simp [rset, h1]
    · simp only [rset, if_neg h1, List.length_cons]
      omega

theorem rget_append {α : Type} (xs ys : List (String × α)) (k : String) :
    rget (xs ++ ys) k = (rget xs k).or (rget ys k) := by
  induction xs with
  | nil => simp [rget, Option.or]
  | cons p rest ih =>
    by_cases h : p.1 = k <;> simp [rget, h, ih, Option.or]

theorem rget_reverse_of_nodup {α : Type} (m : List (String × α)) (k : String)
    (h : (keys m).Nodup) : rget m.reverse k = rget m k := by
  induction m with
  | nil => rfl
  | cons p rest ih =>
    rw [keys_cons, List.nodup_cons] at h
    by_cases h1 : p.1 = k
    · have hk : k ∉ keys rest := by rw [← h1]; exact h.1
      have h2 : rget rest.reverse k = none := by
        rw [ih h.2]
        exact rget_eq_none_of_not_mem_keys rest k hk
      simp [List.reverse_cons, rget_append, h2, rget, h1, Option.or]
    · simp only [List.reverse_cons, rget_append, ih h.2, rget, h1, if_false, if_neg h1]
      cases rget rest k <;> rfl

/-- Sequential JS assignment of a list of bindings into an accumulator
object (the loop body of an object-spread). -/
def assignGo {α : Type} : List (String × α) → List (String × α) → List (String × α)
  | [], acc => acc
  | p :: rest, acc => assignGo rest (rset acc p.1 p.2)

/-- JS object spread `{...a, ...b}`: a fresh object receiving `a`'s bindings
then `b`'s bindings, later assignments replacing earlier ones. -/
def spreadFields {α : Type} (a b : List (String × α)) : List (String × α) :=
  assignGo (a ++ b) []

theorem rget_assignGo {α : Type} (l : List (String × α)) (acc : List (String × α))
    (k : String) : rget (assignGo l acc) k = (rget l.reverse k).or (rget acc k) := by
  induction l generalizing acc with
  | nil => simp [assignGo, rget, Option.or]
  | cons p rest ih =>
    rw [assignGo, ih]
    rw [List.reverse_cons, rget_append, rget_rset, Option.or_assoc]
    by_cases h : p.1 = k
    · simp [rget, h, Option.or]
    · simp [rget, h, Option.or]

theorem keys_assignGo_nodup {α : Type} (l : List (String × α)) (acc : List (String × α))
    (h : (keys acc).Nodup) : (keys (assignGo l acc)).Nodup := by
  induction l generalizing acc with
  | nil => exact h
  | cons p rest ih => exact ih _ (keys_rset_nodup _ _ _ h)

theorem keys_spreadFields_nodup {α : Type} (a b : List (String × α)) :
    (keys (spreadFields a b)).Nodup :=
  keys_assignGo_nodup _ _ (by simp [keys])

theorem rget_spreadFields_reverse {α : Type} (a b : List (String × α)) (k : String) :
    rget (spreadFields a b) k = (rget b.reverse k).or (rget a.reverse k) := by
  rw [spreadFields, rget_assignGo, List.reverse_append, rget_append]
  simp [rget, Option.or]
  cases rget b.reverse k <;> cases rget a.reverse k <;> rfl

theorem rget_spreadFields {α : Type} (a b : List (String × α)) (k : String)
    (ha : (keys a).Nodup) (hb : (keys b).Nodup) :
    rget (spreadFields a b) k = (rget b k).or (rget a k) := by
  rw [rget_spreadFields_reverse, rget_reverse_of_nodup a k ha,
    rget_reverse_of_nodup b k hb]

/-- A `Part` catalogue entry, restricted to the fields the embedded
operations read (`SPRAS_EN` English description, `Supplier_Name`); a missing
field is `none`. -/
structure Part where
  SPRAS_EN : Option String
  Supplier_Name : Option String
  deriving DecidableEq

/-- ASCII lower-casing of one character (model of the `toLowerCase`
behaviour the search terms and catalogue fields exercise). -/
def charLower (c : Char) : Char :=
  if 65 ≤ c.toNat && c.toNat ≤ 90 then Char.ofNat (c.toNat + 32) else c

/-- Model of JS `String.prototype.toLowerCase()`. -/
def jsToLower (s : String) : String := String.mk (s.data.map charLower)

/-- Does the first list start with the second one? -/
def listStartsWith : List Char → List Char → Bool
  | _, [] => true
  | [], _ :: _ => false
  | c :: cs, d :: ds => c == d && listStartsWith cs ds

/-- Does the list contain `sub` as a contiguous run? -/
def listHasSub (sub : List Char) : List Char → Bool
  | [] => listStartsWith [] sub
  | c :: cs => listStartsWith (c :: cs) sub || listHasSub sub cs

/-- Model of JS `s.includes(sub)`: substring containment. -/
def strContains (s sub : String) : Bool := listHasSub sub.data s.data

/-- The match predicate of `FirebaseService.searchParts`: the lower-cased
term occurs in the material code, the English description or the supplier
name (missing fields read as `''`). -/
def matchesTerm (material : String) (part : Part) (searchLower : String) : Bool :=
  strContains (jsToLower material) searchLower
    || strContains (jsToLower (part.SPRAS_EN.getD "")) searchLower
    || strContains (jsToLower (part.Supplier_Name.getD "")) searchLower

/-- The collecting loop of `searchParts`: walks all entries, skipping once
`count` has reached `limit` (the `forEach` callback returns early but keeps
iterating), adding each matching entry to the result object. -/
def searchGo (searchLower : String) (limit : Nat) :
    List (String × Part) → List (String × Part) → Nat → List (String × Part)
  | [], filtered, _ => filtered
  | (material, part) :: rest, filtered, count =>
    if limit ≤ count then searchGo searchLower limit rest filtered count
    else if matchesTerm material part searchLower then
      searchGo searchLower limit rest (rset filtered material part) (count + 1)
    else searchGo searchLower limit rest filtered count

/-- `FirebaseService.searchParts(searchTerm, limit)`.  `base` is the
`material_summary_2025` snapshot in store order (the `limitToFirst(limit)`
query returns its first `limit` entries); `allParts` is what
`getAllParts()` resolves to.  An empty term is falsy, so that path returns
the limited base query result unfiltered. -/
def searchParts (base allParts : List (String × Part)) (searchTerm : String)
    (limit : Nat) : List (String × Part) :=
  if searchTerm = "" then base.take limit
  else searchGo (jsToLower searchTerm) limit allParts [] 0

/-- The boundary-deduplication step of `getPaginatedParts`: when the range
query returned a non-empty object whose first key equals the cursor, that
entry is deleted (`delete data[keys[0]]`). -/
def dropCursorHead (c : String) : List (String × Part) → List (String × Part)
  | [] => []
  | p :: rest => if p.1 = c then rest else p :: rest

/-- `FirebaseService.getPaginatedParts(limit, startAfter)`.  The remote
`Parts` subtree is `db` in ascending key order; the store's key order is the
abstract comparator `le`, so `startAt(c)` returns the entries whose key `k`
satisfies `le c k` and `limitToFirst(n)` keeps the first `n` of them.  An
empty cursor string is falsy, taking the unconditioned branch.  When the
first returned key equals the cursor, that entry is deleted from the
result. -/
def getPaginatedParts (le : String → String → Bool) (db : List (String × Part))
    (limit : Nat) (startAfter : Option String) : List (String × Part) :=
  match startAfter with
  | some c =>
    if c = "" then db.take limit
    else dropCursorHead c ((db.filter (fun p => le c p.1)).take (limit + 1))
  | none => db.take limit

/-- Lexicographic byte order on keys: a concrete instance of the store's
key comparator, used to instantiate pagination facts. -/
def charListLe : List Char → List Char → Bool
  | [], _ => true
  | _ :: _, [] => false
  | c :: cs, d :: ds =>
    if c.toNat < d.toNat then true
    else if d.toNat < c.toNat then false
    else charListLe cs ds

/-- Concrete key comparator on strings (lexicographic byte order). -/
def keyLe (a b : String) : Bool := charListLe a.data b.data

/-- A bill-of-materials row as projected by `getBoMComponents`; the three
projected fields keep whatever (truthy) value the store held, hence `Val`. -/
structure BoMComponent where
  Component_Material : String
  Component_Description : Val
  Standard_Price : Val
  Supplier : Val

/-- The projection applied to each structured child of a BoM subtree:
missing (or falsy) description defaults to `''`, price to `0`, supplier to
`''`. -/
def projectComponent (materialCode : String) (componentData : Val) : BoMComponent :=
  { Component_Material := materialCode
    Component_Description := jsOr (getProp componentData "Component_Description") (Val.str "")
    Standard_Price := jsOr (getProp componentData "Standard_Price") (Val.num 0)
    Supplier := jsOr (getProp componentData "Supplier") (Val.str "") }

/-- The `Object.entries(data).forEach` loop of `getBoMComponents`: children
passing `componentData && typeof componentData === 'object'` are projected,
all other children are skipped. -/
def bomGo : List (String × Val) → List (String × BoMComponent) → List (String × BoMComponent)
  | [], components => components
  | (materialCode, componentData) :: rest, components =>
    bomGo rest
      (if jsTruthy componentData && isObjectType componentData then
        rset components materialCode (projectComponent materialCode componentData)
      else components)

/-- `FirebaseService.getBoMComponents(modelWithMY)` applied to the snapshot
value `data` of the `BoM/{modelWithMY}` subtree (`!data` returns `{}`). -/
def getBoMComponents (data : Val) : List (String × BoMComponent) :=
  if jsTruthy data then bomGo (entriesOf data) [] else []

/-- The base/admin collection loop of the merging `getAllParts` (service
variant in `pdf.ts`): keeps exactly the entries whose value passes
`isRecord`. -/
def collectRecordsGo : List (String × Val) → List (String × Val) → List (String × Val)
  | [], acc => acc
  | (material, part) :: rest, acc =>
    collectRecordsGo rest (if isRecord part then rset acc material part else acc)

/-- Collection of the record-valued entries of a snapshot value (guarded by
`isRecord` on the snapshot itself). -/
def collectRecords (v : Val) : List (String × Val) :=
  if isRecord v then collectRecordsGo (objFields v) [] else []

/-- The override-merging loop of `getAllParts`:
`merged[material] = { ...(merged[material] ?? {}), ...overrides }`. -/
def mergeAdminGo : List (String × Val) → List (String × Val) → List (String × Val)
  | [], merged => merged
  | (material, overrides) :: rest, merged =>
    mergeAdminGo rest
      (rset merged material
        (Val.obj (spreadFields (objFields ((rget merged material).getD (Val.obj [])))
          (objFields overrides))))

/-- `FirebaseService.getAllParts()` of the service variant embedded in
`pdf.ts`: reads the base dataset (`material_summary_2025`) and the admin
overrides (`Parts`) and merges them with per-field override precedence.
`baseVal` and `adminVal` are the two snapshot values. -/
def getAllParts (baseVal adminVal : Val) : List (String × Val) :=
  mergeAdminGo (collectRecords adminVal) (collectRecords baseVal)

/-- The externally visible state the application workflow manipulates: the
`partApplications` document collection and the blob store (root keys mapped
to abstract byte contents, modelled as `Nat`). Document-store reads and
writes are assumed to succeed; the fault injection of `Faults` covers the
blob-store and network steps whose failure the code handles explicitly. -/
structure World where
  partApplications : List (String × Val)
  blobs : List (String × Nat)

/-- Fault injection for one run: which remote image operations fail. -/
structure Faults where
  fetchFails : Bool
  fetchNotOk : Bool
  canvasFails : Bool
  uploadFails : Bool
  deleteFails : Bool

/-- `getDownloadURL` issues a URL that addresses a storage key. -/
def downloadURL (key : String) : String := "download://" ++ key

/-- Bytes served when fetching a URL: the content of the blob the URL
addresses (junk `0` when no blob answers, as a fetch of a dangling URL
still yields bytes). -/
def contentAt (w : World) (url : String) : Nat :=
  ((w.blobs.find? (fun p => downloadURL p.1 == url)).map Prod.snd).getD 0

/-- The string a stored value reads back as (stored image URLs are strings
in every state the workflow produces). -/
def strVal : Val → String
  | .str s => s
  | _ => ""

/-- The canvas fallback re-encodes the pixels; the re-encoded bytes need
not be byte-identical to the source. -/
def reencode (content : Nat) : Nat := content + 1

/-- `FirebaseService.approvePartApplication(applicationId, partCode)` from
`firebase.ts`: if the record exists, write back
`{ ...currentData, status: 'approved', partCode, approvedAt }`; otherwise
do nothing.  `now` is the approval timestamp string. -/
def approvePartApplication (w : World) (applicationId partCode now : String) : World :=
  match rget w.partApplications applicationId with
  | some currentData =>
    let updates : Val := Val.obj (spreadFields (objFields currentData)
      [("status", Val.str "approved"), ("partCode", Val.str partCode),
        ("approvedAt", Val.str now)])
    { w with partApplications := rset w.partApplications applicationId updates }
  | none => w

/-- `FirebaseService.renamePartApplicationImage(applicationId, partCode)`
from `firebase.ts` (copy + delete strategy).  Returns the final world and
whether the call returned normally (`false` = the rethrown error reached
the caller).  Steps, in source order: resolve the source download URL
(fails when the source blob is absent), fetch its bytes, upload them under
`{partCode}.png`, best-effort delete of the source blob (failure swallowed),
resolve the destination download URL, then write the record's `imageUrl`. -/
def renamePartApplicationImage (w : World) (f : Faults)
    (applicationId partCode : String) : World × Bool :=
  let oldKey := applicationId ++ ".png"
  match rget w.blobs oldKey with
  | none => (w, false)
  | some content =>
    if f.fetchFails then (w, false)
    else if f.uploadFails then (w, false)
    else
      let w1 : World := { w with blobs := rset w.blobs (partCode ++ ".png") content }
      let w2 : World := if f.deleteFails then w1 else { w1 with blobs := rdel w1.blobs oldKey }
      match rget w2.blobs (partCode ++ ".png") with
      | none => (w2, false)
      | some _ =>
        let newUrl := downloadURL (partCode ++ ".png")
        match rget w2.partApplications applicationId with
        | some current =>
          let updated : Val :=
            Val.obj (spreadFields (objFields current) [("imageUrl", Val.str newUrl)])
          ({ w2 with partApplications := rset w2.partApplications applicationId updated },
            true)
        | none =>
          let fresh : Val := Val.obj [("imageUrl", Val.str newUrl)]
          ({ w2 with partApplications := rset w2.partApplications applicationId fresh },
            true)

/-- The fallback value of `copyImageToPartCode`'s catch handler: re-read
the application and return its stored `imageUrl || ''`. -/
def catchImageUrl (w : World) (applicationId : String) : String :=
  match rget w.partApplications applicationId with
  | some appData =>
    match getProp appData "imageUrl" with
    | some v => if jsTruthy v then strVal v else ""
    | none => ""
  | none => ""

namespace V2

/-- `FirebaseService.copyImageToPartCode(applicationId, partCode)` of the
service variant in `pdf.ts`: read the application's stored image URL, fetch
its bytes (falling back to a canvas pixel copy when the response is not ok)
and upload them under `{partCode}.png`.  Every failure is caught and
resolves to the stored URL (or `''`); a missing record or missing image URL
resolves to `''`.  Returns the new download URL (or the fallback string)
and the resulting world. -/
def copyImageToPartCode (w : World) (f : Faults)
    (applicationId partCode : String) : String × World :=
  match rget w.partApplications applicationId with
  | none => ("", w)
  | some appData =>
    let currentImageUrl := getProp appData "imageUrl"
    match currentImageUrl with
    | none => ("", w)
    | some cur =>
      if jsTruthy cur = false then ("", w)
      else if f.fetchFails then (catchImageUrl w applicationId, w)
      else if f.fetchNotOk then
        if f.canvasFails then (catchImageUrl w applicationId, w)
        else if f.uploadFails then (catchImageUrl w applicationId, w)
        else
          let copied := reencode (contentAt w (strVal cur))
          let w1 : World := { w with blobs := rset w.blobs (partCode ++ ".png") copied }
          (downloadURL (partCode ++ ".png"), w1)
      else if f.uploadFails then (catchImageUrl w applicationId, w)
      else
        let fetched := contentAt w (strVal cur)
        let w1 : World := { w with blobs := rset w.blobs (partCode ++ ".png") fetched }
        (downloadURL (partCode ++ ".png"), w1)

/-- `FirebaseService.renamePartApplicationImage(applicationId, partCode)` of
the service variant in `pdf.ts` (copy strategy): when the copy produced a
truthy URL, write `{ ...currentData, imageUrl, partCodeImageUrl }` back to
the record; otherwise just log.  Its own catch handler swallows every
error, so the call always returns normally (`true`). -/
def renamePartApplicationImage (w : World) (f : Faults)
    (applicationId partCode : String) : World × Bool :=
  let r := copyImageToPartCode w f applicationId partCode
  if r.1 != "" then
    match rget r.2.partApplications applicationId with
    | some currentData =>
      let updatedData : Val := Val.obj (spreadFields (objFields currentData)
        [("imageUrl", Val.str r.1), ("partCodeImageUrl", Val.str r.1)])
      ({ r.2 with partApplications := rset r.2.partApplications applicationId updatedData },
        true)
    | none => (r.2, true)
  else (r.2, true)

end V2

/-- `handleApprove` of the part-application page (`take-photo.tsx`, second
document): approve first, then — when the dialog's application shows an
image URL — re-home the image with the copy-strategy rename.  Returns the
final world and whether the whole handler ran without a caught error. -/
def handleApprove (w : World) (f : Faults) (applicationId partCode now : String)
    (dialogImageUrl : Option String) : World × Bool :=
  let w1 := approvePartApplication w applicationId partCode now
  match dialogImageUrl with
  | some u =>
    if u != "" then V2.renamePartApplicationImage w1 f applicationId partCode
    else (w1, true)
  | none => (w1, true)

/-- `nextNumber.toString().padStart(4, '0')`. -/
def padStart (s : String) (n : Nat) (c : Char) : String :=
  if n ≤ s.length then s else String.mk (List.replicate (n - s.length) c) ++ s

/-- `generateApplicationId` of the part-application page: sequential
human-readable code `APP` + (count + 1), zero-padded to four digits. -/
def generateApplicationId (applicationsCount : Nat) : String :=
  "APP" ++ padStart (toString (applicationsCount + 1)) 4 '0'

/-- The form state of the part-application page (all text inputs). -/
structure ApplicationForm where
  requestedBy : String
  department : String
  priority : String
  specifications : String
  supplier : String
  standardPrice : String
  notes : String

/-- Outcome a submission surfaces to the user. -/
inductive SubmitOutcome where
  | ok (id : String)
  | validationError (msg : String)
  | remoteError
  deriving DecidableEq

/-- `handleSubmit` of the part-application page: validate the required
fields, then the image; generate the sequential identifier; upload the
image as `{applicationId}.png`; store the record through
`savePartApplication`, which writes exactly the listed fields (there is no
`partCode` field) with `status: 'pending'`. -/
def handleSubmit (w : World) (f : Faults) (form : ApplicationForm)
    (selectedFile : Option Nat) (applicationsCount : Nat) (now : String) :
    SubmitOutcome × World :=
  if form.requestedBy = "" || form.department = "" || form.specifications = ""
      || form.supplier = "" || form.standardPrice = "" then
    (.validationError "Please fill in all required fields", w)
  else
    match selectedFile with
    | none => (.validationError "Please upload an image", w)
    | some file =>
      let applicationId := generateApplicationId applicationsCount
      if f.uploadFails then (.remoteError, w)
      else
        let w1 : World := { w with blobs := rset w.blobs (applicationId ++ ".png") file }
        let imageUrl := downloadURL (applicationId ++ ".png")
        let record : Val := Val.obj
          [("requestedBy", Val.str form.requestedBy),
            ("department", Val.str form.department),
            ("priority", Val.str form.priority),
            ("specifications", Val.str form.specifications),
            ("supplier", Val.str form.supplier),
            ("standardPrice", Val.str form.standardPrice),
            ("notes", Val.str form.notes),
            ("submittedAt", Val.str now),
            ("status", Val.str "pending"),
            ("imageUrl", Val.str imageUrl)]
        let w2 : World :=
          { w1 with partApplications := rset w1.partApplications applicationId record }
        (.ok applicationId, w2)

/-- Public blob-store base URL the PDF renderer guesses against. -/
def storagePublicBase : String :=
  "https://firebasestorage.googleapis.com/v0/b/parts-catalogue-mgx.appspot.com/o/part-applications%2F"

/-- The candidate image URL list built by `PDFService.generateEnglishPage`:
the record's stored image URL when truthy, then the guessed `.jpg` URL,
then the guessed `.png` URL. -/
def pdfCandidateUrls (imageUrl : Option String) (ticketId : String) : List String :=
  (match imageUrl with
    | some u => if u != "" then [u] else []
    | none => []) ++
  [storagePublicBase ++ ticketId ++ ".jpg?alt=media",
    storagePublicBase ++ ticketId ++ ".png?alt=media"]

/-- The URL whose image the renderer embeds: the `for … break` loop stops
at the first candidate that loads (`loads` says which URLs decode). -/
def embeddedImageUrl (imageUrl : Option String) (ticketId : String)
    (loads : String → Bool) : Option String :=
  (pdfCandidateUrls imageUrl ticketId).find? loads

theorem not_mem_keys_of_rget_eq_none {α : Type} (m : List (String × α)) (k : String)
    (h : rget m k = none) : k ∉ keys m := by
  induction m with
  | nil => simp
  | cons p rest ih =>
    by_cases h1 : p.1 = k
    · simp [rget, h1] at h
    · rw [rget, if_neg h1] at h
      rw [keys_cons, List.mem_cons]
      push_neg
      exact ⟨fun hc => h1 hc.symm, ih h⟩

theorem rget_rdel {α : Type} (m : List (String × α)) (k k' : String) :
    rget (rdel m k) k' = if k' = k then none else rget m k' := by
  induction m with
  | nil => by_cases h : k' = k <;> simp [rdel, rget, h]
  | cons p rest ih =>
    rw [rdel]
    by_cases h1 : p.1 = k
    · rw [if_pos h1, ih]
      by_cases h3 : k' = k
      · simp [h3]
      · have h4 : ¬ p.1 = k' := by rw [h1]; intro hc; exact h3 hc.symm
        rw [if_neg h3, if_neg h3]
        simp only [rget, if_neg h4]
    · rw [if_neg h1]
      simp only [rget]
      by_cases h5 : p.1 = k'
      · have h3 : ¬ k' = k := fun hc => h1 (h5.trans hc)
        rw [if_pos h5, if_neg h3]
        simp only [rget, if_pos h5]
      · rw [if_neg h5, ih]
        by_cases h3 : k' = k
        · simp [h3]
        · rw [if_neg h3, if_neg h3]
          simp only [rget, if_neg h5]

theorem getLast?_mem {α : Type} : ∀ (l : List α) (a : α), l.getLast? = some a → a ∈ l := by
  intro l
  induction l with
  | nil => intro a h; simp at h
  | cons x rest ih =>
    intro a h
    cases rest with
    | nil =>
      simp [List.getLast?] at h
      simp [h]
    | cons y ys =>
      rw [List.getLast?_cons_cons] at h
      exact List.mem_cons_of_mem _ (ih a h)

theorem getProp_eq_rget_objFields (v : Val) (k : String) :
    getProp v k = rget (objFields v) k := by
  cases v <;> rfl

theorem find?_first {α : Type} (p : α → Bool) :
    ∀ (l : List α) (u : α), l.find? p = some u →
      p u = true ∧ ∃ pre post, l = pre ++ u :: post ∧ ∀ v ∈ pre, p v = false := by
  intro l
  induction l with
  | nil => intro u h; simp at h
  | cons a rest ih =>
    intro u h
    by_cases ha : p a
    · rw [List.find?_cons_of_pos rest ha] at h
      have hau : a = u := by injection h
      subst hau
      exact ⟨ha, [], rest, rfl, by simp⟩
    · rw [List.find?_cons_of_neg rest (by simpa using ha)] at h
      obtain ⟨hpu, pre, post, heq, hall⟩ := ih u h
      refine ⟨hpu, a :: pre, post, by rw [List.cons_append, heq], ?_⟩
      intro v hv
      rcases List.mem_cons.mp hv with h' | h'
      · rw [h']; simpa using ha
      · exact hall v h'

/-- C9: with an empty search term, `searchParts` returns the first `limit`
entries of the base dataset unfiltered (bypassing the merged admin
overrides), so it has at most `limit` entries and exactly `limit` of them
whenever the base dataset has at least `limit` entries. -/
theorem searchParts_empty_term (base allParts : List (String × Part)) (limit : Nat) :
    searchParts base allParts "" limit = base.take limit
    ∧ (searchParts base allParts "" limit).length ≤ limit
    ∧ (limit ≤ base.length → (searchParts base allParts "" limit).length = limit) := by
  have he : searchParts base allParts "" limit = base.take limit := rfl
  refine ⟨he, ?_, ?_⟩
  · rw [he, List.length_take]
    exact min_le_left _ _
  · intro h
    rw [he, List.length_take]
    omega

/-- C9 witness: a two-entry base dataset with `limit = 1`. -/
theorem searchParts_empty_term_witness :
    searchParts [("a", ⟨none, none⟩), ("b", ⟨none, none⟩)] [] "" 1
      = [("a", (⟨none, none⟩ : Part))]
    ∧ (searchParts [("a", ⟨none, none⟩), ("b", ⟨none, none⟩)] [] "" 1).length = 1 := by
  have h := searchParts_empty_term [("a", ⟨none, none⟩), ("b", ⟨none, none⟩)] [] 1
  exact ⟨h.1.trans rfl, h.2.2 (by decide)⟩

/-- C10: approving an application identifier with no stored record is a
silent no-op: the call completes (the function is total, no error path is
taken) and the returned world — every collection included — is exactly the
input world, indistinguishable from a successful approval's `void` return. -/
theorem approvePartApplication_missing_noop (w : World)
    (applicationId partCode now : String)
    (h : rget w.partApplications applicationId = none) :
    approvePartApplication w applicationId partCode now = w := by
  simp [approvePartApplication, h]

/-- C10 witness: an empty application collection. -/
theorem approvePartApplication_missing_noop_witness :
    approvePartApplication ⟨[], []⟩ "A1" "PC-100" "2025-01-01" = ⟨[], []⟩ :=
  approvePartApplication_missing_noop ⟨[], []⟩ "A1" "PC-100" "2025-01-01" rfl

theorem searchGo_bound_and_match (searchLower : String) (limit : Nat) :
    ∀ (l filtered : List (String × Part)) (count : Nat),
      filtered.length ≤ count → count ≤ limit →
      (∀ p ∈ filtered, matchesTerm p.1 p.2 searchLower = true) →
      (searchGo searchLower limit l filtered count).length ≤ limit
      ∧ ∀ p ∈ searchGo searchLower limit l filtered count,
          matchesTerm p.1 p.2 searchLower = true := by
  intro l
  induction l with
  | nil =>
    intro filtered count h1 h2 h3
    exact ⟨Nat.le_trans h1 h2, h3⟩
  | cons hd rest ih =>
    intro filtered count h1 h2 h3
    obtain ⟨material, part⟩ := hd
    by_cases hc : limit ≤ count
    · simpa [searchGo, hc] using ih filtered count h1 h2 h3
    · by_cases hm : matchesTerm material part searchLower
      · have hlen : (rset filtered material part).length ≤ count + 1 :=
          Nat.le_trans (length_rset_le filtered material part) (by omega)
        have hcnt : count + 1 ≤ limit := by omega
        have hmem : ∀ q ∈ rset filtered material part,
            matchesTerm q.1 q.2 searchLower = true := by
          intro q hq
          rcases mem_rset filtered material part q hq with h | h
          · rw [h]; exact hm
          · exact h3 q h
        simpa [searchGo, hc, hm] using ih _ _ hlen hcnt hmem
      · simpa [searchGo, hc, hm] using ih filtered count h1 h2 h3

/-- C5: for a non-empty term, `searchParts` returns at most `limit` entries
and every returned entry matches: the lower-cased term occurs as a
substring of the material code, the English description or the supplier
name (each lower-cased, missing fields reading as the empty string). -/
theorem searchParts_limit_and_match (base allParts : List (String × Part))
    (searchTerm : String) (limit : Nat) (h : searchTerm ≠ "") :
    (searchParts base allParts searchTerm limit).length ≤ limit
    ∧ ∀ p ∈ searchParts base allParts searchTerm limit,
        matchesTerm p.1 p.2 (jsToLower searchTerm) = true := by
  have hg := searchGo_bound_and_match (jsToLower searchTerm) limit allParts [] 0
    (by simp) (Nat.zero_le _) (by simp)
  simpa [searchParts, h] using hg

/-- C5 witness: a two-entry dataset searched with term "bo" and limit 1. -/
theorem searchParts_limit_and_match_witness :
    (searchParts [] [("M1", ⟨some "Bolt", some "Acme"⟩), ("M2", ⟨some "Bolt", none⟩)]
        "bo" 1).length ≤ 1
    ∧ ∀ p ∈ searchParts [] [("M1", ⟨some "Bolt", some "Acme"⟩), ("M2", ⟨some "Bolt", none⟩)]
        "bo" 1, matchesTerm p.1 p.2 (jsToLower "bo") = true :=
  searchParts_limit_and_match [] [("M1", ⟨some "Bolt", some "Acme"⟩), ("M2", ⟨some "Bolt", none⟩)]
    "bo" 1 (by decide)

/-- C7 counterexample: with a stored image URL present, the renderer's
candidate list is the stored URL, then the guessed `.jpg` URL, then the
guessed `.png` URL against the `part-applications` path — the first guessed
extension is `.jpg`, not `.png`, and no `.webp` candidate is ever tried,
refuting the claimed `.png`, `.jpg`, `.webp` fallback order. -/
theorem pdf_fallback_counterexample :
    pdfCandidateUrls (some "S") "T1"
      = ["S",
        "https://firebasestorage.googleapis.com/v0/b/parts-catalogue-mgx.appspot.com/o/part-applications%2FT1.jpg?alt=media",
        "https://firebasestorage.googleapis.com/v0/b/parts-catalogue-mgx.appspot.com/o/part-applications%2FT1.png?alt=media"]
    ∧ (∀ u ∈ pdfCandidateUrls (some "S") "T1", strContains u ".webp" = false) := by
  exact ⟨rfl, by decide⟩

/-- C7 amended: the renderer tries the record's stored image URL first
(when truthy), then the guessed `.jpg` URL, then the guessed `.png` URL
against the blob store's public `part-applications` base, and embeds the
first candidate that successfully loads (every candidate before the
embedded one failed to load; if none is embedded, every candidate failed). -/
theorem pdf_image_embedding_amended (imageUrl : Option String) (ticketId : String)
    (loads : String → Bool) :
    (∀ s, imageUrl = some s → s ≠ "" →
      pdfCandidateUrls imageUrl ticketId
        = s :: [storagePublicBase ++ ticketId ++ ".jpg?alt=media",
            storagePublicBase ++ ticketId ++ ".png?alt=media"])
    ∧ (∀ u, embeddedImageUrl imageUrl ticketId loads = some u →
        loads u = true ∧ ∃ pre post, pdfCandidateUrls imageUrl ticketId = pre ++ u :: post
          ∧ ∀ v ∈ pre, loads v = false)
    ∧ (embeddedImageUrl imageUrl ticketId loads = none →
        ∀ v ∈ pdfCandidateUrls imageUrl ticketId, loads v = false) := by
  refine ⟨?_, ?_, ?_⟩
  · intro s hs hne
    subst hs
    simp [pdfCandidateUrls, hne]
  · intro u hu
    exact find?_first loads _ u hu
  · intro hn v hv
    have := List.find?_eq_none.mp hn v hv
    simpa using this

/-- C7 amended witness: a loader that accepts only the stored URL embeds
the stored URL, with no earlier candidate. -/
theorem pdf_image_embedding_amended_witness :
    (fun u => u == "S") "S" = true
    ∧ ∃ pre post, pdfCandidateUrls (some "S") "T1" = pre ++ "S" :: post
      ∧ ∀ v ∈ pre, (fun u => u == "S") v = false :=
  (pdf_image_embedding_amended (some "S") "T1" (fun u => u == "S")).2.1 "S" rfl

theorem rget_bomGo_not_mem :
    ∀ (l : List (String × Val)) (acc : List (String × BoMComponent)) (k : String),
      k ∉ keys l → rget (bomGo l acc) k = rget acc k := by
  intro l
  induction l with
  | nil => intro acc k _; rfl
  | cons p rest ih =>
    intro acc k h
    obtain ⟨mc, cd⟩ := p
    rw [keys_cons, List.mem_cons] at h
    push_neg at h
    rw [bomGo, ih _ _ h.2]
    by_cases hg : jsTruthy cd && isObjectType cd
    · rw [if_pos hg, rget_rset, if_neg (fun hc => h.1 hc.symm)]
    · rw [if_neg hg]

theorem rget_bomGo_found :
    ∀ (l : List (String × Val)) (acc : List (String × BoMComponent)) (k : String) (cd : Val),
      (keys l).Nodup → rget l k = some cd →
      rget (bomGo l acc) k
        = if jsTruthy cd && isObjectType cd then some (projectComponent k cd)
          else rget acc k := by
  intro l
  induction l with
  | nil => intro acc k cd _ hfind; simp [rget] at hfind
  | cons p rest ih =>
    intro acc k cd hnd hfind
    obtain ⟨mc, c⟩ := p
    rw [keys_cons, List.nodup_cons] at hnd
    by_cases hk : mc = k
    · subst hk
      have hc : c = cd := by simpa [rget] using hfind
      subst hc
      rw [bomGo, rget_bomGo_not_mem rest _ mc hnd.1]
      by_cases hg : jsTruthy c && isObjectType c
      · rw [if_pos hg, if_pos hg, rget_rset, if_pos rfl]
      · rw [if_neg hg, if_neg hg]
    · have hfind' : rget rest k = some cd := by simpa [rget, hk] using hfind
      rw [bomGo, ih _ _ _ hnd.2 hfind']
      by_cases hg : jsTruthy cd && isObjectType cd
      · rw [if_pos hg, if_pos hg]
      · rw [if_neg hg, if_neg hg]
        by_cases hgc : jsTruthy c && isObjectType c
        · rw [if_pos hgc, rget_rset, if_neg hk]
        · rw [if_neg hgc]

/-- C8: for every stored subtree value, `getBoMComponents` returns a
component for exactly the children passing the structured-record guard
(`componentData && typeof componentData === 'object'`), projected with
missing description defaulting to `''`, missing price to `0`, missing
supplier to `''`; every other child is skipped, and the function is total
(no error is raised on malformed rows). -/
theorem getBoMComponents_spec (data : Val)
    (hnd : (keys (entriesOf data)).Nodup) (mc : String) :
    rget (getBoMComponents data) mc
      = (if jsTruthy data then rget (entriesOf data) mc else none).bind
          (fun cd => if jsTruthy cd && isObjectType cd
            then some (projectComponent mc cd) else none)
    ∧ (∀ cd, getProp cd "Component_Description" = none →
        (projectComponent mc cd).Component_Description = Val.str "")
    ∧ (∀ cd, getProp cd "Standard_Price" = none →
        (projectComponent mc cd).Standard_Price = Val.num 0)
    ∧ (∀ cd, getProp cd "Supplier" = none →
        (projectComponent mc cd).Supplier = Val.str "") := by
  refine ⟨?_, ?_, ?_, ?_⟩
  · by_cases ht : jsTruthy data
    · rw [getBoMComponents, if_pos ht, if_pos ht]
      cases hfind : rget (entriesOf data) mc with
      | none =>
        rw [rget_bomGo_not_mem _ _ _ (not_mem_keys_of_rget_eq_none _ _ hfind)]
        rfl
      | some cd =>
        rw [rget_bomGo_found _ _ _ cd hnd hfind]
        have hbind : (some cd).bind (fun c => if jsTruthy c && isObjectType c
            then some (projectComponent mc c) else none)
          = if jsTruthy cd && isObjectType cd then some (projectComponent mc cd) else none := rfl
        rw [hbind]
        by_cases hg : jsTruthy cd && isObjectType cd
        · rw [if_pos hg, if_pos hg]
        · rw [if_neg hg, if_neg hg]
          rfl
    · rw [getBoMComponents, if_neg ht, if_neg ht]
      rfl
  · intro cd h; simp [projectComponent, jsOr, h]
  · intro cd h; simp [projectComponent, jsOr, h]
  · intro cd h; simp [projectComponent, jsOr, h]

/-- C8 witness: a subtree with one structured child (with missing
description and price) and one string child: the structured child is
projected with defaults, the string child is skipped. -/
theorem getBoMComponents_spec_witness :
    rget (getBoMComponents (Val.obj [("C1", Val.obj [("Supplier", Val.str "S")]),
        ("C2", Val.str "junk")])) "C1"
      = some (projectComponent "C1" (Val.obj [("Supplier", Val.str "S")]))
    ∧ rget (getBoMComponents (Val.obj [("C1", Val.obj [("Supplier", Val.str "S")]),
        ("C2", Val.str "junk")])) "C2" = none := by
  have h1 := (getBoMComponents_spec (Val.obj [("C1", Val.obj [("Supplier", Val.str "S")]),
    ("C2", Val.str "junk")]) (by decide) "C1").1
  have h2 := (getBoMComponents_spec (Val.obj [("C1", Val.obj [("Supplier", Val.str "S")]),
    ("C2", Val.str "junk")]) (by decide) "C2").1
  exact ⟨h1.trans rfl, h2.trans rfl⟩

/-- C4: `handleSubmit` fails with the validation message naming the problem
when any required textual field is missing (and the world — so every remote
store — is unchanged: no remote call happens), likewise when the image is
missing; on success the returned identifier addresses a stored record whose
`status` is `'pending'` and which has no `partCode` field. -/
theorem handleSubmit_spec (w : World) (f : Faults) (form : ApplicationForm)
    (selectedFile : Option Nat) (applicationsCount : Nat) (now : String) :
    ((form.requestedBy = "" ∨ form.department = "" ∨ form.specifications = ""
        ∨ form.supplier = "" ∨ form.standardPrice = "") →
      handleSubmit w f form selectedFile applicationsCount now
        = (.validationError "Please fill in all required fields", w))
    ∧ (form.requestedBy ≠ "" → form.department ≠ "" → form.specifications ≠ ""
        → form.supplier ≠ "" → form.standardPrice ≠ "" → selectedFile = none →
      handleSubmit w f form selectedFile applicationsCount now
        = (.validationError "Please upload an image", w))
    ∧ (∀ file, form.requestedBy ≠ "" → form.department ≠ "" → form.specifications ≠ ""
        → form.supplier ≠ "" → form.standardPrice ≠ "" → selectedFile = some file →
        f.uploadFails = false →
      (handleSubmit w f form selectedFile applicationsCount now).1
          = .ok (generateApplicationId applicationsCount)
        ∧ ∃ rec,
            rget (handleSubmit w f form selectedFile applicationsCount now).2.partApplications
                (generateApplicationId applicationsCount) = some rec
            ∧ getProp rec "status" = some (Val.str "pending")
            ∧ getProp rec "partCode" = none) := by
  refine ⟨?_, ?_, ?_⟩
  · intro h
    rcases h with h | h | h | h | h <;> simp [handleSubmit, h]
  · intro h1 h2 h3 h4 h5 hfile
    subst hfile
    simp [handleSubmit, h1, h2, h3, h4, h5]
  · intro file h1 h2 h3 h4 h5 hfile hup
    subst hfile
    refine ⟨by simp [handleSubmit, h1, h2, h3, h4, h5, hup], ?_⟩
    refine ⟨Val.obj
      [("requestedBy", Val.str form.requestedBy),
        ("department", Val.str form.department),
        ("priority", Val.str form.priority),
        ("specifications", Val.str form.specifications),
        ("supplier", Val.str form.supplier),
        ("standardPrice", Val.str form.standardPrice),
        ("notes", Val.str form.notes),
        ("submittedAt", Val.str now),
        ("status", Val.str "pending"),
        ("imageUrl", Val.str (downloadURL (generateApplicationId applicationsCount ++ ".png")))],
      ?_, ?_, ?_⟩
    · simp [handleSubmit, h1, h2, h3, h4, h5, hup, rget_rset]
    · simp [getProp, rget]
    · simp [getProp, rget]

/-- C4 witness: a fully filled form with an attached image stores a pending
record without `partCode` under the generated identifier `APP0001`. -/
theorem handleSubmit_spec_witness :
    (handleSubmit ⟨[], []⟩ ⟨false, false, false, false, false⟩
        ⟨"r", "d", "p", "s", "u", "1", "n"⟩ (some 7) 0 "t").1 = .ok "APP0001"
    ∧ ∃ rec,
        rget (handleSubmit ⟨[], []⟩ ⟨false, false, false, false, false⟩
            ⟨"r", "d", "p", "s", "u", "1", "n"⟩ (some 7) 0 "t").2.partApplications
            "APP0001" = some rec
        ∧ getProp rec "status" = some (Val.str "pending")
        ∧ getProp rec "partCode" = none := by
  have h := (handleSubmit_spec ⟨[], []⟩ ⟨false, false, false, false, false⟩
    ⟨"r", "d", "p", "s", "u", "1", "n"⟩ (some 7) 0 "t").2.2 7
    (by decide) (by decide) (by decide) (by decide) (by decide) rfl rfl
  have hid : generateApplicationId 0 = "APP0001" := by decide
  constructor
  · exact h.1.trans (by rw [hid])
  · obtain ⟨rec, hr, hs, hp⟩ := h.2
    exact ⟨rec, by rw [← hid]; exact hr, hs, hp⟩

/-- C6: with the `Parts` subtree strictly ascending in the store's key
order (`le`) and every key nonempty (as the store requires), a second page
queried with the last key of the first page as cursor contains no entry
with the cursor key: the inclusive-start range query's boundary row is the
first returned entry and is dropped, so no boundary row is duplicated. -/
theorem getPaginatedParts_no_boundary_duplicate (le : String → String → Bool)
    (db : List (String × Part)) (limit : Nat)
    (hsorted : db.Pairwise (fun p q => le q.1 p.1 = false ∧ p.1 ≠ q.1))
    (hkeys : ∀ p ∈ db, p.1 ≠ "")
    (c : String) (pv : String × Part)
    (hlast : (getPaginatedParts le db limit none).getLast? = some pv)
    (hc : c = pv.1) :
    ∀ q ∈ getPaginatedParts le db limit (some c), q.1 ≠ c := by
  have hpage1 : getPaginatedParts le db limit none = db.take limit := rfl
  rw [hpage1] at hlast
  have hpv : pv ∈ db := List.take_subset limit db (getLast?_mem _ _ hlast)
  have hcne : c ≠ "" := by rw [hc]; exact hkeys pv hpv
  intro q hq
  have hbr : getPaginatedParts le db limit (some c)
      = dropCursorHead c ((db.filter (fun p => le c p.1)).take (limit + 1)) := by
    simp [getPaginatedParts, hcne]
  rw [hbr] at hq
  have hpfl : (db.filter (fun p => le c p.1)).Pairwise
      (fun p q => le q.1 p.1 = false ∧ p.1 ≠ q.1) :=
    hsorted.sublist (List.filter_sublist db)
  rcases hdl : db.filter (fun p => le c p.1) with _ | ⟨p, fl⟩
  · rw [hdl] at hq
    simp [dropCursorHead] at hq
  · rw [hdl] at hq hpfl
    rw [List.take_succ_cons] at hq
    have hpw := (List.pairwise_cons.mp hpfl).1
    by_cases hpc : p.1 = c
    · simp only [dropCursorHead] at hq
      rw [if_pos hpc] at hq
      have hq' : q ∈ fl := List.take_subset _ _ hq
      have hne := (hpw q hq').2
      rw [hpc] at hne
      exact hne.symm
    · simp only [dropCursorHead] at hq
      rw [if_neg hpc] at hq
      rcases List.mem_cons.mp hq with hqp | hq2
      · rw [hqp]; exact hpc
      · intro hqc
        have hq' : q ∈ fl := List.take_subset _ _ hq2
        have h1 := (hpw q hq').1
        rw [hqc] at h1
        have hpmem : p ∈ db.filter (fun p => le c p.1) := by
          rw [hdl]; exact List.mem_cons_self _ _
        have h2 : le c p.1 = true :=
          @List.of_mem_filter _ (fun q => le c q.1) p db hpmem
        rw [h1] at h2
        exact absurd h2 (by decide)

/-- C3: in the copy+delete image re-homing of `firebase.ts`, the source
blob survives every run in which the upload did not succeed (it is deleted
only after a successful upload); a delete failure is swallowed — the rename
still returns normally, with the destination blob holding the source bytes;
and the stored application record's image URL is updated to the destination
key's download URL. -/
theorem renameImage_copy_delete_spec (w : World) (f : Faults)
    (applicationId partCode : String) (content : Nat)
    (hsrc : rget w.blobs (applicationId ++ ".png") = some content)
    (hkne : ¬ partCode ++ ".png" = applicationId ++ ".png") :
    ((f.fetchFails = true ∨ f.uploadFails = true) →
      renamePartApplicationImage w f applicationId partCode = (w, false))
    ∧ (f.fetchFails = false → f.uploadFails = false →
      (renamePartApplicationImage w f applicationId partCode).2 = true
      ∧ rget (renamePartApplicationImage w f applicationId partCode).1.blobs
          (partCode ++ ".png") = some content
      ∧ (f.deleteFails = false →
          rget (renamePartApplicationImage w f applicationId partCode).1.blobs
            (applicationId ++ ".png") = none)
      ∧ (f.deleteFails = true →
          rget (renamePartApplicationImage w f applicationId partCode).1.blobs
            (applicationId ++ ".png") = some content)
      ∧ ∃ rec,
          rget (renamePartApplicationImage w f applicationId partCode).1.partApplications
            applicationId = some rec
          ∧ getProp rec "imageUrl"
              = some (Val.str (downloadURL (partCode ++ ".png")))) := by
  obtain ⟨ff, fo, fc, fu, fd⟩ := f
  constructor
  · intro h
    rcases h with h | h
    · subst h
      simp [renamePartApplicationImage, hsrc]
    · subst h
      cases ff
      · simp [renamePartApplicationImage, hsrc]
      · simp [renamePartApplicationImage, hsrc]
  · intro hff hfu
    subst hff
    subst hfu
    cases fd
    · cases happ : rget w.partApplications applicationId with
      | some cur =>
        refine ⟨?_, ?_, ?_, ?_, ?_⟩
        · simp [renamePartApplicationImage, hsrc, rget_rset, rget_rdel, hkne, happ]
        · simp [renamePartApplicationImage, hsrc, rget_rset, rget_rdel, hkne, happ]
        · simp [renamePartApplicationImage, hsrc, rget_rset, rget_rdel, hkne, happ]
        · simp
        · refine ⟨Val.obj (spreadFields (objFields cur)
            [("imageUrl", Val.str (downloadURL (partCode ++ ".png")))]), ?_, ?_⟩
          · simp [renamePartApplicationImage, hsrc, rget_rset, rget_rdel, hkne, happ]
          · show rget (spreadFields (objFields cur)
              [("imageUrl", Val.str (downloadURL (partCode ++ ".png")))]) "imageUrl" = _
            rw [rget_spreadFields_reverse]
            rfl
      | none =>
        refine ⟨?_, ?_, ?_, ?_, ?_⟩
        · simp [renamePartApplicationImage, hsrc, rget_rset, rget_rdel, hkne, happ]
        · simp [renamePartApplicationImage, hsrc, rget_rset, rget_rdel, hkne, happ]
        · simp [renamePartApplicationImage, hsrc, rget_rset, rget_rdel, hkne, happ]
        · simp
        · refine ⟨Val.obj [("imageUrl", Val.str (downloadURL (partCode ++ ".png")))], ?_, ?_⟩
          · simp [renamePartApplicationImage, hsrc, rget_rset, rget_rdel, hkne, happ]
          · rfl
    · cases happ : rget w.partApplications applicationId with
      | some cur =>
        refine ⟨?_, ?_, ?_, ?_, ?_⟩
        · simp [renamePartApplicationImage, hsrc, rget_rset, rget_rdel, hkne, happ]
        · simp [renamePartApplicationImage, hsrc, rget_rset, rget_rdel, hkne, happ]
        · simp
        · intro _
          simp [renamePartApplicationImage, hsrc, rget_rset, rget_rdel, hkne, happ]
        · refine ⟨Val.obj (spreadFields (objFields cur)
            [("imageUrl", Val.str (downloadURL (partCode ++ ".png")))]), ?_, ?_⟩
          · simp [renamePartApplicationImage, hsrc, rget_rset, rget_rdel, hkne, happ]
          · show rget (spreadFields (objFields cur)
              [("imageUrl", Val.str (downloadURL (partCode ++ ".png")))]) "imageUrl" = _
            rw [rget_spreadFields_reverse]
            rfl
      | none =>
        refine ⟨?_, ?_, ?_, ?_, ?_⟩
        · simp [renamePartApplicationImage, hsrc, rget_rset, rget_rdel, hkne, happ]
        · simp [renamePartApplicationImage, hsrc, rget_rset, rget_rdel, hkne, happ]
        · simp
        · intro _
          simp [renamePartApplicationImage, hsrc, rget_rset, rget_rdel, hkne, happ]
        · refine ⟨Val.obj [("imageUrl", Val.str (downloadURL (partCode ++ ".png")))], ?_, ?_⟩
          · simp [renamePartApplicationImage, hsrc, rget_rset, rget_rdel, hkne, happ]
          · rfl

theorem copyImage_partApplications_unchanged (w : World) (f : Faults)
    (applicationId partCode : String) :
    (V2.copyImageToPartCode w f applicationId partCode).2.partApplications
      = w.partApplications := by
  cases h : rget w.partApplications applicationId with
  | none => simp [V2.copyImageToPartCode, h]
  | some appData =>
    cases hu : getProp appData "imageUrl" with
    | none => simp [V2.copyImageToPartCode, h, hu]
    | some cur =>
      cases ht : jsTruthy cur
      · simp [V2.copyImageToPartCode, h, hu, ht]
      · obtain ⟨ff, fo, fc, fu, fd⟩ := f
        cases ff <;> cases fo <;> cases fc <;> cases fu <;>
          simp [V2.copyImageToPartCode, h, hu, ht]

theorem V2_renameImage_record (w : World) (f : Faults)
    (applicationId partCode : String) (rec : Val)
    (hrec : rget w.partApplications applicationId = some rec)
    (hnod : (keys (objFields rec)).Nodup) :
    (V2.renamePartApplicationImage w f applicationId partCode).2 = true
    ∧ ∃ rec',
        rget (V2.renamePartApplicationImage w f applicationId partCode).1.partApplications
          applicationId = some rec'
        ∧ ∀ field, field ≠ "imageUrl" → field ≠ "partCodeImageUrl" →
            getProp rec' field = getProp rec field := by
  have happs := copyImage_partApplications_unchanged w f applicationId partCode
  have hr2 : rget (V2.copyImageToPartCode w f applicationId partCode).2.partApplications
      applicationId = some rec := by rw [happs]; exact hrec
  by_cases hre : (V2.copyImageToPartCode w f applicationId partCode).1 = ""
  · have hb : ((V2.copyImageToPartCode w f applicationId partCode).1 != "") = false := by
      simp [hre]
    refine ⟨?_, rec, ?_, fun _ _ _ => rfl⟩
    · simp [V2.renamePartApplicationImage, hb]
    · simp [V2.renamePartApplicationImage, hb]
      exact hr2
  · have hb : ((V2.copyImageToPartCode w f applicationId partCode).1 != "") = true := by
      simp [hre]
    refine ⟨?_, Val.obj (spreadFields (objFields rec)
      [("imageUrl", Val.str (V2.copyImageToPartCode w f applicationId partCode).1),
        ("partCodeImageUrl", Val.str (V2.copyImageToPartCode w f applicationId partCode).1)]),
      ?_, ?_⟩
    · simp [V2.renamePartApplicationImage, hb, hr2]
    · simp [V2.renamePartApplicationImage, hb, hr2, rget_rset]
    · intro field hf1 hf2
      show rget (spreadFields (objFields rec) _) field = getProp rec field
      have hbn : (keys [("imageUrl", Val.str (V2.copyImageToPartCode w f applicationId partCode).1),
          ("partCodeImageUrl",
            Val.str (V2.copyImageToPartCode w f applicationId partCode).1)]).Nodup := by
        simp
      rw [rget_spreadFields _ _ _ hnod hbn]
      have hov : rget [("imageUrl", Val.str (V2.copyImageToPartCode w f applicationId partCode).1),
          ("partCodeImageUrl", Val.str (V2.copyImageToPartCode w f applicationId partCode).1)]
          field = none := by
        rw [rget, if_neg (fun hc => hf1 hc.symm), rget, if_neg (fun hc => hf2 hc.symm)]
        rfl
      rw [hov, getProp_eq_rget_objFields]
      rfl

theorem renameImage_record_after (w : World) (f : Faults)
    (applicationId partCode : String) (rec : Val)
    (hrec : rget w.partApplications applicationId = some rec)
    (hnod : (keys (objFields rec)).Nodup) :
    ∃ rec',
      rget (renamePartApplicationImage w f applicationId partCode).1.partApplications
        applicationId = some rec'
      ∧ ∀ field, field ≠ "imageUrl" → getProp rec' field = getProp rec field := by
  cases hbl : rget w.blobs (applicationId ++ ".png") with
  | none =>
    refine ⟨rec, ?_, fun _ _ => rfl⟩
    simp [renamePartApplicationImage, hbl]
    exact hrec
  | some content =>
    obtain ⟨ff, fo, fc, fu, fd⟩ := f
    cases ff
    · cases fu
      · cases fd
        · cases hb2 : rget (rdel (rset w.blobs (partCode ++ ".png") content)
              (applicationId ++ ".png")) (partCode ++ ".png") with
          | none =>
            refine ⟨rec, ?_, fun _ _ => rfl⟩
            simp [renamePartApplicationImage, hbl, hb2]
            exact hrec
          | some c2 =>
            refine ⟨Val.obj (spreadFields (objFields rec)
              [("imageUrl", Val.str (downloadURL (partCode ++ ".png")))]), ?_, ?_⟩
            · simp [renamePartApplicationImage, hbl, hb2, hrec, rget_rset]
            · intro field hf1
              show rget (spreadFields (objFields rec) _) field = getProp rec field
              have hbn : (keys [("imageUrl",
                  Val.str (downloadURL (partCode ++ ".png")))]).Nodup := by
                simp
              rw [rget_spreadFields _ _ _ hnod hbn]
              have hov : rget [("imageUrl", Val.str (downloadURL (partCode ++ ".png")))]
                  field = none := by
                rw [rget, if_neg (fun hc => hf1 hc.symm)]
                rfl
              rw [hov, getProp_eq_rget_objFields]
              rfl
        · cases hb2 : rget (rset w.blobs (partCode ++ ".png") content)
              (partCode ++ ".png") with
          | none =>
            refine ⟨rec, ?_, fun _ _ => rfl⟩
            simp [renamePartApplicationImage, hbl, hb2]
            exact hrec
          | some c2 =>
            refine ⟨Val.obj (spreadFields (objFields rec)
              [("imageUrl", Val.str (downloadURL (partCode ++ ".png")))]), ?_, ?_⟩
            · simp [renamePartApplicationImage, hbl, hb2, hrec, rget_rset]
            · intro field hf1
              show rget (spreadFields (objFields rec) _) field = getProp rec field
              have hbn : (keys [("imageUrl",
                  Val.str (downloadURL (partCode ++ ".png")))]).Nodup := by
                simp
              rw [rget_spreadFields _ _ _ hnod hbn]
              have hov : rget [("imageUrl", Val.str (downloadURL (partCode ++ ".png")))]
                  field = none := by
                rw [rget, if_neg (fun hc => hf1 hc.symm)]
                rfl
              rw [hov, getProp_eq_rget_objFields]
              rfl
      · refine ⟨rec, ?_, fun _ _ => rfl⟩
        simp [renamePartApplicationImage, hbl]
        exact hrec
    · refine ⟨rec, ?_, fun _ _ => rfl⟩
      simp [renamePartApplicationImage, hbl]
      exact hrec

/-- C2: approving a pending application stores `status: 'approved'` and the
given `partCode`, and this persists for every fault configuration of the
image re-homing step: the copy-strategy rename always returns normally (its
catch swallows every failure, so nothing propagates to the caller of
approve), and even under the throwing copy+delete rename the approval write
is never rolled back. -/
theorem handleApprove_approves_despite_rehoming_failure (w : World) (f : Faults)
    (applicationId partCode now : String) (dialogImageUrl : Option String) (rec : Val)
    (hrec : rget w.partApplications applicationId = some rec)
    (_hpending : getProp rec "status" = some (Val.str "pending")) :
    ((handleApprove w f applicationId partCode now dialogImageUrl).2 = true
      ∧ ∃ rec',
          rget (handleApprove w f applicationId partCode now dialogImageUrl).1.partApplications
            applicationId = some rec'
          ∧ getProp rec' "status" = some (Val.str "approved")
          ∧ getProp rec' "partCode" = some (Val.str partCode))
    ∧ (∀ w2 ok2,
        renamePartApplicationImage (approvePartApplication w applicationId partCode now)
            f applicationId partCode = (w2, ok2) →
        ∃ rec'',
          rget w2.partApplications applicationId = some rec''
          ∧ getProp rec'' "status" = some (Val.str "approved")
          ∧ getProp rec'' "partCode" = some (Val.str partCode)) := by
  have hw1 : (approvePartApplication w applicationId partCode now).partApplications
      = rset w.partApplications applicationId (Val.obj (spreadFields (objFields rec)
          [("status", Val.str "approved"), ("partCode", Val.str partCode),
            ("approvedAt", Val.str now)])) := by
    simp [approvePartApplication, hrec]
  have hget1 : rget (approvePartApplication w applicationId partCode now).partApplications
      applicationId = some (Val.obj (spreadFields (objFields rec)
        [("status", Val.str "approved"), ("partCode", Val.str partCode),
          ("approvedAt", Val.str now)])) := by
    rw [hw1, rget_rset, if_pos rfl]
  have hstat : rget (spreadFields (objFields rec)
      [("status", Val.str "approved"), ("partCode", Val.str partCode),
        ("approvedAt", Val.str now)]) "status" = some (Val.str "approved") := by
    rw [rget_spreadFields_reverse]
    rfl
  have hpart : rget (spreadFields (objFields rec)
      [("status", Val.str "approved"), ("partCode", Val.str partCode),
        ("approvedAt", Val.str now)]) "partCode" = some (Val.str partCode) := by
    rw [rget_spreadFields_reverse]
    rfl
  have hnodA : (keys (spreadFields (objFields rec)
      [("status", Val.str "approved"), ("partCode", Val.str partCode),
        ("approvedAt", Val.str now)])).Nodup := keys_spreadFields_nodup _ _
  constructor
  · cases dialogImageUrl with
    | none =>
      exact ⟨rfl, Val.obj (spreadFields (objFields rec)
        [("status", Val.str "approved"), ("partCode", Val.str partCode),
          ("approvedAt", Val.str now)]), hget1, hstat, hpart⟩
    | some u =>
      by_cases hu : u = ""
      · subst hu
        exact ⟨rfl, Val.obj (spreadFields (objFields rec)
          [("status", Val.str "approved"), ("partCode", Val.str partCode),
            ("approvedAt", Val.str now)]), hget1, hstat, hpart⟩
      · have hbu : (u != "") = true := by simp [hu]
        have h2 := V2_renameImage_record
          (approvePartApplication w applicationId partCode now) f applicationId partCode
          (Val.obj (spreadFields (objFields rec)
            [("status", Val.str "approved"), ("partCode", Val.str partCode),
              ("approvedAt", Val.str now)])) hget1 hnodA
        obtain ⟨hok, rec', hr', hpres⟩ := h2
        have hrun : handleApprove w f applicationId partCode now (some u)
            = V2.renamePartApplicationImage
                (approvePartApplication w applicationId partCode now) f applicationId
                partCode := by
          simp [handleApprove, hbu]
        rw [hrun]
        refine ⟨hok, rec', hr', ?_, ?_⟩
        · rw [hpres "status" (by decide) (by decide)]
          exact hstat
        · rw [hpres "partCode" (by decide) (by decide)]
          exact hpart
  · intro w2 ok2 hrun
    have h3 := renameImage_record_after
      (approvePartApplication w applicationId partCode now) f applicationId partCode
      (Val.obj (spreadFields (objFields rec)
        [("status", Val.str "approved"), ("partCode", Val.str partCode),
          ("approvedAt", Val.str now)])) hget1 hnodA
    rw [hrun] at h3
    obtain ⟨recB, hrB, hpresB⟩ := h3
    refine ⟨recB, hrB, ?_, ?_⟩
    · rw [hpresB "status" (by decide)]
      exact hstat
    · rw [hpresB "partCode" (by decide)]
      exact hpart

/-- C2 witness: a pending record approved as `PC-100` while the copy fetch
fails: the handler reports success and the stored record is approved with
the part code. -/
theorem handleApprove_approves_despite_rehoming_failure_witness :
    (handleApprove ⟨[("A", Val.obj [("status", Val.str "pending"),
        ("imageUrl", Val.str "u")])], []⟩
      ⟨true, false, false, false, false⟩ "A" "PC-100" "t" (some "u")).2 = true
    ∧ ∃ rec',
        rget (handleApprove ⟨[("A", Val.obj [("status", Val.str "pending"),
            ("imageUrl", Val.str "u")])], []⟩
          ⟨true, false, false, false, false⟩ "A" "PC-100" "t" (some "u")).1.partApplications
          "A" = some rec'
        ∧ getProp rec' "status" = some (Val.str "approved")
        ∧ getProp rec' "partCode" = some (Val.str "PC-100") :=
  (handleApprove_approves_despite_rehoming_failure
    ⟨[("A", Val.obj [("status", Val.str "pending"), ("imageUrl", Val.str "u")])], []⟩
    ⟨true, false, false, false, false⟩ "A" "PC-100" "t" (some "u")
    (Val.obj [("status", Val.str "pending"), ("imageUrl", Val.str "u")]) rfl rfl).1

/-- C3 witness: a world with the source blob `A.png` and its record: with
no faults injected the rename succeeds, the destination blob `PC.png`
holds the source bytes, the source blob is gone, and the record's image
URL points at the destination key. -/
theorem renameImage_copy_delete_spec_witness :
    (renamePartApplicationImage
        ⟨[("A", Val.obj [("imageUrl", Val.str "u")])], [("A.png", 7)]⟩
        ⟨false, false, false, false, false⟩ "A" "PC").2 = true
    ∧ rget (renamePartApplicationImage
        ⟨[("A", Val.obj [("imageUrl", Val.str "u")])], [("A.png", 7)]⟩
        ⟨false, false, false, false, false⟩ "A" "PC").1.blobs ("PC" ++ ".png") = some 7
    ∧ ∃ rec,
        rget (renamePartApplicationImage
          ⟨[("A", Val.obj [("imageUrl", Val.str "u")])], [("A.png", 7)]⟩
          ⟨false, false, false, false, false⟩ "A" "PC").1.partApplications "A" = some rec
        ∧ getProp rec "imageUrl" = some (Val.str (downloadURL ("PC" ++ ".png"))) := by
  have h := (renameImage_copy_delete_spec
    ⟨[("A", Val.obj [("imageUrl", Val.str "u")])], [("A.png", 7)]⟩
    ⟨false, false, false, false, false⟩ "A" "PC" 7 rfl (by decide)).2 rfl rfl
  exact ⟨h.1, h.2.1, h.2.2.2.2⟩

theorem rget_collectRecordsGo_not_mem :
    ∀ (fs acc : List (String × Val)) (k : String),
      k ∉ keys fs → rget (collectRecordsGo fs acc) k = rget acc k := by
  intro fs
  induction fs with
  | nil => intro acc k _; rfl
  | cons p rest ih =>
    intro acc k h
    obtain ⟨material, part⟩ := p
    rw [keys_cons, List.mem_cons] at h
    push_neg at h
    rw [collectRecordsGo, ih _ _ h.2]
    by_cases hg : isRecord part
    · rw [if_pos hg, rget_rset, if_neg (fun hc => h.1 hc.symm)]
    · rw [if_neg hg]

theorem rget_collectRecordsGo :
    ∀ (fs acc : List (String × Val)) (k : String) (v : Val),
      (keys fs).Nodup → rget fs k = some v →
      rget (collectRecordsGo fs acc) k
        = if isRecord v then some v else rget acc k := by
  intro fs
  induction fs with
  | nil => intro acc k v _ hfind; simp [rget] at hfind
  | cons p rest ih =>
    intro acc k v hnd hfind
    obtain ⟨material, part⟩ := p
    rw [keys_cons, List.nodup_cons] at hnd
    by_cases hk : material = k
    · subst hk
      have hv : part = v := by simpa [rget] using hfind
      subst hv
      rw [collectRecordsGo, rget_collectRecordsGo_not_mem rest _ material hnd.1]
      by_cases hg : isRecord part
      · rw [if_pos hg, if_pos hg, rget_rset, if_pos rfl]
      · rw [if_neg hg, if_neg hg]
    · have hfind' : rget rest k = some v := by simpa [rget, hk] using hfind
      rw [collectRecordsGo, ih _ _ _ hnd.2 hfind']
      by_cases hg : isRecord v
      · rw [if_pos hg, if_pos hg]
      · rw [if_neg hg, if_neg hg]
        by_cases hgp : isRecord part
        · rw [if_pos hgp, rget_rset, if_neg hk]
        · rw [if_neg hgp]

theorem keys_collectRecordsGo_nodup :
    ∀ (fs acc : List (String × Val)),
      (keys acc).Nodup → (keys (collectRecordsGo fs acc)).Nodup := by
  intro fs
  induction fs with
  | nil => intro acc h; exact h
  | cons p rest ih =>
    intro acc h
    obtain ⟨material, part⟩ := p
    rw [collectRecordsGo]
    by_cases hg : isRecord part
    · rw [if_pos hg]
      exact ih _ (keys_rset_nodup _ _ _ h)
    · rw [if_neg hg]
      exact ih _ h

theorem rget_mergeAdminGo_not_mem :
    ∀ (l merged : List (String × Val)) (k : String),
      k ∉ keys l → rget (mergeAdminGo l merged) k = rget merged k := by
  intro l
  induction l with
  | nil => intro merged k _; rfl
  | cons p rest ih =>
    intro merged k h
    obtain ⟨material, overrides⟩ := p
    rw [keys_cons, List.mem_cons] at h
    push_neg at h
    rw [mergeAdminGo, ih _ _ h.2, rget_rset, if_neg (fun hc => h.1 hc.symm)]

theorem rget_mergeAdminGo :
    ∀ (l merged : List (String × Val)) (k : String) (ov : Val),
      (keys l).Nodup → rget l k = some ov →
      rget (mergeAdminGo l merged) k
        = some (Val.obj (spreadFields (objFields ((rget merged k).getD (Val.obj [])))
            (objFields ov))) := by
  intro l
  induction l with
  | nil => intro merged k ov _ hfind; simp [rget] at hfind
  | cons p rest ih =>
    intro merged k ov hnd hfind
    obtain ⟨material, overrides⟩ := p
    rw [keys_cons, List.nodup_cons] at hnd
    by_cases hk : material = k
    · subst hk
      have hv : overrides = ov := by simpa [rget] using hfind
      subst hv
      rw [mergeAdminGo, rget_mergeAdminGo_not_mem rest _ material hnd.1, rget_rset,
        if_pos rfl]
    · have hfind' : rget rest k = some ov := by simpa [rget, hk] using hfind
      rw [mergeAdminGo, ih _ _ _ hnd.2 hfind', rget_rset, if_neg hk]

/-- C1: for every base snapshot and admin-overrides snapshot (with JS
object keys, hence no duplicates), a key carrying a record in both datasets
maps, in the mapping returned by the merging `getAllParts`, to a record
whose value at every field is the override's value when the override has
that field and the base record's value otherwise (shallow field-by-field
merge, override wins). -/
theorem getAllParts_override_merge (bfs afs : List (String × Val)) (k : String)
    (b o : List (String × Val))
    (hnb : (keys bfs).Nodup) (hna : (keys afs).Nodup)
    (hob : (keys b).Nodup) (hoo : (keys o).Nodup)
    (hb : rget bfs k = some (Val.obj b)) (ho : rget afs k = some (Val.obj o)) :
    ∃ m, rget (getAllParts (Val.obj bfs) (Val.obj afs)) k = some (Val.obj m)
      ∧ ∀ field, rget m field = (rget o field).or (rget b field) := by
  have hbase : rget (collectRecords (Val.obj bfs)) k = some (Val.obj b) := by
    show rget (collectRecordsGo bfs []) k = some (Val.obj b)
    rw [rget_collectRecordsGo bfs [] k (Val.obj b) hnb hb]
    rfl
  have hadmin : rget (collectRecords (Val.obj afs)) k = some (Val.obj o) := by
    show rget (collectRecordsGo afs []) k = some (Val.obj o)
    rw [rget_collectRecordsGo afs [] k (Val.obj o) hna ho]
    rfl
  have hndA : (keys (collectRecords (Val.obj afs))).Nodup := by
    show (keys (collectRecordsGo afs [])).Nodup
    exact keys_collectRecordsGo_nodup afs [] (by simp)
  refine ⟨spreadFields b o, ?_, ?_⟩
  · have := rget_mergeAdminGo (collectRecords (Val.obj afs)) (collectRecords (Val.obj bfs))
      k (Val.obj o) hndA hadmin
    rw [getAllParts, this, hbase]
    rfl
  · intro field
    exact rget_spreadFields b o field hob hoo

/-- C1 witness: base record `{a: "1", b: "2"}` overridden by `{b: "9"}`
merges to override-wins per field. -/
theorem getAllParts_override_merge_witness :
    ∃ m, rget (getAllParts (Val.obj [("k", Val.obj [("a", Val.str "1"), ("b", Val.str "2")])])
        (Val.obj [("k", Val.obj [("b", Val.str "9")])])) "k" = some (Val.obj m)
      ∧ ∀ field, rget m field
          = (rget [("b", Val.str "9")] field).or
            (rget [("a", Val.str "1"), ("b", Val.str "2")] field) :=
  getAllParts_override_merge [("k", Val.obj [("a", Val.str "1"), ("b", Val.str "2")])]
    [("k", Val.obj [("b", Val.str "9")])] "k"
    [("a", Val.str "1"), ("b", Val.str "2")] [("b", Val.str "9")]
    (by decide) (by decide) (by decide) (by decide) rfl rfl

/-- C6 witness: three keys with limit 2 — the second page, queried with the
first page's last key "b" as cursor, contains the entry keyed "c", whose
key therefore differs from the cursor. -/
theorem getPaginatedParts_no_boundary_duplicate_witness :
    ("c", (⟨none, none⟩ : Part)) ∈ getPaginatedParts keyLe
        [("a", (⟨none, none⟩ : Part)), ("b", ⟨none, none⟩), ("c", ⟨none, none⟩)]
        2 (some "b")
    ∧ (("c", (⟨none, none⟩ : Part)).1 ≠ "b") :=
  ⟨by decide,
    getPaginatedParts_no_boundary_duplicate keyLe
      [("a", ⟨none, none⟩), ("b", ⟨none, none⟩), ("c", ⟨none, none⟩)] 2
      (by decide) (by decide) "b" ("b", ⟨none, none⟩) (by decide) rfl
      ("c", ⟨none, none⟩) (by decide)⟩

end PartsCatalogue
